import Mathlib

/-!
Verification of the anchor-based text patcher.

The repository's three scripts share one core: locate a literal anchor in a
document with Python's `str.find` (optionally starting at the position of a
scope anchor, optionally taking the second occurrence by re-searching from the
previous match's end), then splice `content[:idx] + replacement +
content[idx + len(anchor):]`; conflict-marker resolution uses Python's
`str.replace` (replace all non-overlapping occurrences, left to right).

Documents are modelled as `List Char`.  `strFind` is `str.find`,
`locate`/`locate_nth`/`apply` are the search-and-splice pattern of
`patch_api_bind.py` (scope search, first occurrence) and `patch_nvidia.py`
(scope search, second occurrence), and `replaceAll`/`apply_literal_block`
are the `content.replace` pattern of `patch_context.py`.
-/

set_option autoImplicit false

/-- Python `content.find(anchor)` over char lists: index of the first
occurrence of `anchor` in `document`, `none` when absent (Python's `-1`).
Checks each position left to right, as in `patch_api_bind.py` line 6 /
`patch_nvidia.py` line 8. -/
def strFind (anchor : List Char) (document : List Char) : Option Nat :=
  match document with
  | [] => if anchor.isPrefixOf [] then some 0 else none
  | c :: rest =>
    if anchor.isPrefixOf (c :: rest) then some 0
    else (strFind anchor rest).map (· + 1)

/-- Python `content.find(anchor, start)`: first occurrence at or after
`start` (`content.find(old_api_block, load_idx)` in `patch_api_bind.py`
line 19, `content.find(gemini_block, load_idx)` in `patch_nvidia.py`
line 25).  Python returns `-1` when `start` exceeds the length, even for an
empty anchor. -/
def locate (document anchor : List Char) (start : Nat) : Option Nat :=
  if start ≤ document.length then (strFind anchor (document.drop start)).map (· + start)
  else none

/-- The n-th (1-indexed) occurrence of `anchor` at or after `start`: the
first occurrence, then each further search restarts at the previous match's
end, exactly as `patch_nvidia.py` lines 25-27 compute `first_idx` and then
`second_idx = content.find(gemini_block, first_idx + len(gemini_block))`. -/
def locate_nth (document anchor : List Char) (n : Nat) (start : Nat) : Option Nat :=
  match n with
  | 0 => none
  | 1 => locate document anchor start
  | m + 2 =>
    match locate document anchor start with
    | none => none
    | some p => locate_nth document anchor (m + 1) (p + anchor.length)

/-- Outcome of one anchor patch: the new content, or the anchor was absent
(the scripts' `sys.exit(1)` / "Could not find" branches). -/
inductive PatchResult where
  | applied (newContent : List Char)
  | notFound
deriving DecidableEq

/-- The full search-and-splice pattern shared by `patch_api_bind.py` and
`patch_nvidia.py`: resolve the scope anchor (its own starting index becomes
the search lower bound), find the `occurrence_index`-th occurrence of the
target anchor from there, and splice
`content[:idx] + replacement + content[idx + len(anchor):]`. -/
def apply (document : List Char) (scope_anchor : Option (List Char))
    (target_anchor : List Char) (occurrence_index : Nat)
    (replacement : List Char) : PatchResult :=
  match (match scope_anchor with
         | none => some 0
         | some s => locate document s 0) with
  | none => .notFound
  | some start =>
    match locate_nth document target_anchor occurrence_index start with
    | none => .notFound
    | some pos =>
      .applied (document.take pos ++ replacement ++
        document.drop (pos + target_anchor.length))

/-- `anchor` occurs in `document` at index `i` (a genuine occurrence: the
match fits inside the document). -/
def occursAt (anchor document : List Char) (i : Nat) : Prop :=
  anchor.isPrefixOf (document.drop i) = true ∧ i + anchor.length ≤ document.length

instance (anchor document : List Char) (i : Nat) : Decidable (occursAt anchor document i) := by
  unfold occursAt; exact inferInstance

/-- Number of indices at which `anchor` occurs in `document`. -/
def occCount (document anchor : List Char) : Nat :=
  ((List.range (document.length + 1)).filter
    (fun i => decide (occursAt anchor document i))).length

/-- The stream of non-overlapping occurrence positions at or after `start`,
enumerated left to right with each further search restarting at the previous
match's end (the spec's tie-break rule); `fuel` bounds the recursion and
`document.length + 1` is always enough for a non-empty anchor. -/
def occPositions (document anchor : List Char) : Nat → Nat → List Nat
  | 0, _ => []
  | fuel + 1, start =>
    match locate document anchor start with
    | none => []
    | some p => p :: occPositions document anchor fuel (p + anchor.length)

/-- Python `content.replace(marker, repl)` over char lists
(`patch_context.py` lines 17 and 34): scan left to right, replace each
non-overlapping occurrence, and never rescan the spliced-in replacement.
In the match branch `rest.drop (marker.length - 1)` is
`(c :: rest).drop marker.length`: the scan resumes at the match's end.
An empty marker inserts the replacement at every position, as in Python. -/
def replaceAll (marker repl : List Char) (document : List Char) : List Char :=
  match document with
  | [] => if marker.isEmpty then repl else []
  | c :: rest =>
    if marker.isEmpty then repl ++ c :: replaceAll marker repl rest
    else if marker.isPrefixOf (c :: rest) then
      repl ++ replaceAll marker repl (rest.drop (marker.length - 1))
    else c :: replaceAll marker repl rest
termination_by document.length
decreasing_by
  all_goals simp only [List.length_cons, List.length_drop]
  all_goals omega

/-- Outcome of conflict-marker resolution: the rewritten content, or
`Unchanged` when the marker block is absent (the spec's reading of
`content.replace` being a no-op there; `patch_context.py` writes the file
unconditionally, which changes nothing in that case). -/
inductive BlockResult where
  | applied (newDocument : List Char)
  | unchanged
deriving DecidableEq

/-- Python `marker in content`, via `find`. -/
def containsSub (document sub : List Char) : Bool :=
  (strFind sub document).isSome

/-- Conflict-marker resolution (`patch_context.py`): if the marker block
occurs, replace all of its non-overlapping occurrences with the replacement
block; otherwise the document is left unchanged. -/
def apply_literal_block (document marker repl : List Char) : BlockResult :=
  if containsSub document marker then .applied (replaceAll marker repl document)
  else .unchanged

theorem isPrefixOf_length_le {A l : List Char} (h : A.isPrefixOf l = true) :
    A.length ≤ l.length :=
  (List.isPrefixOf_iff_prefix.mp h).length_le

theorem isPrefixOf_self (l : List Char) : l.isPrefixOf l = true :=
  List.isPrefixOf_iff_prefix.mpr (List.prefix_refl l)

theorem isPrefixOf_append_right {A l : List Char} (t : List Char)
    (h : A.isPrefixOf l = true) : A.isPrefixOf (l ++ t) = true :=
  List.isPrefixOf_iff_prefix.mpr
    ((List.isPrefixOf_iff_prefix.mp h).trans (List.prefix_append l t))

theorem isPrefixOf_nil_iff {A : List Char} : A.isPrefixOf ([] : List Char) = true ↔ A = [] := by
  rw [List.isPrefixOf_iff_prefix, List.prefix_nil]

theorem occursAt_zero {A D : List Char} : occursAt A D 0 ↔ A.isPrefixOf D = true := by
  unfold occursAt
  rw [List.drop_zero]
  constructor
  · exact fun h => h.1
  · intro h
    exact ⟨h, by have := isPrefixOf_length_le h; omega⟩

theorem occursAt_cons {A : List Char} {c : Char} {rest : List Char} {i : Nat} :
    occursAt A (c :: rest) (i + 1) ↔ occursAt A rest i := by
  unfold occursAt
  rw [List.drop_succ_cons, List.length_cons]
  exact ⟨fun ⟨h1, h2⟩ => ⟨h1, by omega⟩, fun ⟨h1, h2⟩ => ⟨h1, by omega⟩⟩

theorem occursAt_le_length {A D : List Char} {i : Nat} (h : occursAt A D i) :
    i ≤ D.length := by
  have := h.2; omega

/-- `strFind` returns the first occurrence: an occurrence at the result, and
no occurrence strictly before it. -/
theorem strFind_some {A : List Char} :
    ∀ {D : List Char} {p : Nat}, strFind A D = some p →
      occursAt A D p ∧ ∀ q, q < p → ¬ occursAt A D q := by
  intro D
  induction D with
  | nil =>
    intro p h
    unfold strFind at h
    by_cases hpre : A.isPrefixOf ([] : List Char) = true
    · rw [if_pos hpre] at h
      injection h with h
      subst h
      refine ⟨⟨by simpa using hpre, ?_⟩, fun q hq => by omega⟩
      have := isPrefixOf_length_le hpre
      simpa using this
    · rw [if_neg hpre] at h
      exact Option.noConfusion h
  | cons c rest ih =>
    intro p h
    unfold strFind at h
    by_cases hpre : A.isPrefixOf (c :: rest) = true
    · rw [if_pos hpre] at h
      injection h with h
      subst h
      exact ⟨occursAt_zero.mpr hpre, fun q hq => by omega⟩
    · rw [if_neg hpre] at h
      obtain ⟨p', hp', rfl⟩ := Option.map_eq_some'.mp h
      obtain ⟨h1, h2⟩ := ih hp'
      refine ⟨occursAt_cons.mpr h1, ?_⟩
      intro q hq
      match q with
      | 0 => exact fun hc => hpre (occursAt_zero.mp hc)
      | q' + 1 =>
        intro hc
        exact h2 q' (by omega) (occursAt_cons.mp hc)

/-- `strFind` fails exactly when the anchor occurs nowhere. -/
theorem strFind_none {A : List Char} :
    ∀ {D : List Char}, strFind A D = none → ∀ i, ¬ occursAt A D i := by
  intro D
  induction D with
  | nil =>
    intro h i hc
    unfold strFind at h
    by_cases hpre : A.isPrefixOf ([] : List Char) = true
    · rw [if_pos hpre] at h
      exact Option.noConfusion h
    · exact hpre (by simpa using hc.1)
  | cons c rest ih =>
    intro h i hc
    unfold strFind at h
    by_cases hpre : A.isPrefixOf (c :: rest) = true
    · rw [if_pos hpre] at h
      exact Option.noConfusion h
    · rw [if_neg hpre] at h
      have h' := Option.map_eq_none'.mp h
      match i with
      | 0 => exact hpre (occursAt_zero.mp hc)
      | i' + 1 => exact ih h' i' (occursAt_cons.mp hc)

theorem occursAt_drop {A D : List Char} {s j : Nat} (hs : s ≤ D.length) :
    occursAt A (D.drop s) j ↔ occursAt A D (s + j) := by
  unfold occursAt
  rw [List.drop_drop, List.length_drop]
  exact ⟨fun ⟨h1, h2⟩ => ⟨h1, by omega⟩, fun ⟨h1, h2⟩ => ⟨h1, by omega⟩⟩

/-- `locate` returns the first occurrence at or after `start`. -/
theorem locate_some {D A : List Char} {s p : Nat} (h : locate D A s = some p) :
    occursAt A D p ∧ s ≤ p ∧ ∀ q, s ≤ q → q < p → ¬ occursAt A D q := by
  unfold locate at h
  by_cases hs : s ≤ D.length
  · rw [if_pos hs] at h
    obtain ⟨j, hj, rfl⟩ := Option.map_eq_some'.mp h
    obtain ⟨h1, h2⟩ := strFind_some hj
    refine ⟨?_, by omega, ?_⟩
    · have := (occursAt_drop hs).mp h1
      rwa [Nat.add_comm] at this
    · intro q hq1 hq2 hc
      have hq : occursAt A (D.drop s) (q - s) := by
        refine (occursAt_drop hs).mpr ?_
        have hsq : s + (q - s) = q := by omega
        rwa [hsq]
      exact h2 (q - s) (by omega) hq
  · rw [if_neg hs] at h
    exact Option.noConfusion h

/-- `locate` fails exactly when no occurrence exists at or after `start`. -/
theorem locate_none {D A : List Char} {s : Nat} (h : locate D A s = none) :
    ∀ q, s ≤ q → ¬ occursAt A D q := by
  intro q hq hc
  unfold locate at h
  by_cases hs : s ≤ D.length
  · rw [if_pos hs] at h
    have h' := Option.map_eq_none'.mp h
    have hq' : occursAt A (D.drop s) (q - s) := by
      refine (occursAt_drop hs).mpr ?_
      have hsq : s + (q - s) = q := by omega
      rwa [hsq]
    exact strFind_none h' (q - s) hq'
  · have := occursAt_le_length hc
    omega

theorem locate_nth_of_locate_none {D A : List Char} {s : Nat}
    (h : locate D A s = none) : ∀ n, locate_nth D A n s = none := by
  intro n
  match n with
  | 0 => simp [locate_nth]
  | 1 => simpa [locate_nth] using h
  | m + 2 => simp [locate_nth, h]

/-- Any position returned by `locate_nth` is an occurrence at or after
`start`. -/
theorem locate_nth_some {D A : List Char} :
    ∀ {n s p : Nat}, locate_nth D A n s = some p → occursAt A D p ∧ s ≤ p := by
  intro n
  induction n with
  | zero =>
    intro s p h
    simp [locate_nth] at h
  | succ n' ih =>
    intro s p h
    rcases n' with _ | m
    · have := locate_some (by simpa [locate_nth] using h)
      exact ⟨this.1, this.2.1⟩
    · simp only [locate_nth] at h
      split at h
      next hloc => exact Option.noConfusion h
      next q hloc =>
        obtain ⟨h1, h2⟩ := ih h
        have hq := locate_some hloc
        exact ⟨h1, by omega⟩

/-- If the anchor occurs exactly once, any two occurrence indices agree. -/
theorem occCount_one_unique {D A : List Char} (h1 : occCount D A = 1)
    {i j : Nat} (hi : occursAt A D i) (hj : occursAt A D j) : i = j := by
  unfold occCount at h1
  obtain ⟨a, ha⟩ := List.length_eq_one.mp h1
  have hmi : i ∈ (List.range (D.length + 1)).filter
      (fun k => decide (occursAt A D k)) :=
    List.mem_filter.mpr
      ⟨List.mem_range.mpr (by have := hi.2; omega), by simpa using hi⟩
  have hmj : j ∈ (List.range (D.length + 1)).filter
      (fun k => decide (occursAt A D k)) :=
    List.mem_filter.mpr
      ⟨List.mem_range.mpr (by have := hj.2; omega), by simpa using hj⟩
  rw [ha] at hmi hmj
  simp only [List.mem_singleton] at hmi hmj
  omega

theorem locate_zero (D A : List Char) : locate D A 0 = strFind A D := by
  unfold locate
  rw [if_pos (Nat.zero_le D.length), List.drop_zero]
  cases h : strFind A D with
  | none => simp
  | some j => simp

theorem apply_none_scope (D A R : List Char) (n : Nat) :
    apply D none A n R =
      match locate_nth D A n 0 with
      | none => .notFound
      | some pos => .applied (D.take pos ++ R ++ D.drop (pos + A.length)) := rfl

theorem apply_some_scope (D sc A R : List Char) (n : Nat) :
    apply D (some sc) A n R =
      match locate D sc 0 with
      | none => .notFound
      | some start =>
        match locate_nth D A n start with
        | none => .notFound
        | some pos => .applied (D.take pos ++ R ++ D.drop (pos + A.length)) := rfl

theorem apply_some_scope_eq {D sc : List Char} {sp : Nat} (A R : List Char) (n : Nat)
    (hsc : locate D sc 0 = some sp) :
    apply D (some sc) A n R =
      match locate_nth D A n sp with
      | none => .notFound
      | some pos => .applied (D.take pos ++ R ++ D.drop (pos + A.length)) := by
  rw [apply_some_scope, hsc]

/-- Structural facts about the splice `content[:pos] + repl + content[pos+len:]`
at a genuine occurrence. -/
theorem splice_props (R : List Char) {D A : List Char} {pos : Nat}
    (hocc : occursAt A D pos) :
    pos + A.length ≤ D.length ∧
    (D.take pos ++ R ++ D.drop (pos + A.length)).length
      = D.length - A.length + R.length ∧
    (D.take pos ++ R ++ D.drop (pos + A.length)).take pos = D.take pos ∧
    (D.take pos ++ R ++ D.drop (pos + A.length)).drop (pos + R.length)
      = D.drop (pos + A.length) := by
  have hb := hocc.2
  have hlt : (D.take pos).length = pos := by
    simp [List.length_take]
    omega
  refine ⟨hb, ?_, ?_, ?_⟩
  · simp [List.length_append, List.length_take, List.length_drop]
    omega
  · rw [List.append_assoc]
    exact List.take_left' hlt
  · refine List.drop_left' ?_
    simp [List.length_append, List.length_take]
    omega

/-- A successful `apply` is exactly one splice at an occurrence of the target
anchor. -/
theorem applied_inv {D : List Char} {scope : Option (List Char)} {A : List Char}
    {n : Nat} {R out : List Char} (h : apply D scope A n R = .applied out) :
    ∃ p, occursAt A D p ∧ out = D.take p ++ R ++ D.drop (p + A.length) := by
  cases scope with
  | none =>
    rw [apply_none_scope] at h
    cases hnth : locate_nth D A n 0 with
    | none =>
      rw [hnth] at h
      exact PatchResult.noConfusion h
    | some pos =>
      rw [hnth] at h
      exact ⟨pos, (locate_nth_some hnth).1, (PatchResult.applied.inj h).symm⟩
  | some sc =>
    cases hsc : locate D sc 0 with
    | none =>
      rw [apply_some_scope, hsc] at h
      exact PatchResult.noConfusion h
    | some st =>
      rw [apply_some_scope_eq A R n hsc] at h
      cases hnth : locate_nth D A n st with
      | none =>
        rw [hnth] at h
        exact PatchResult.noConfusion h
      | some pos =>
        rw [hnth] at h
        exact ⟨pos, (locate_nth_some hnth).1, (PatchResult.applied.inj h).symm⟩

/-- Occurrences of the anchor inside the replacement survive the splice. -/
theorem occursAt_in_replacement {D A R : List Char} {p j : Nat}
    (hocc : occursAt A D p) (hj : occursAt A R j) :
    occursAt A (D.take p ++ R ++ D.drop (p + A.length)) (p + j) := by
  have hb := hocc.2
  have hjb := hj.2
  have hlt : (D.take p).length = p := by
    simp [List.length_take]
    omega
  have hdrop : (D.take p ++ R ++ D.drop (p + A.length)).drop (p + j)
      = R.drop j ++ D.drop (p + A.length) := by
    rw [List.append_assoc, List.drop_append_eq_append_drop,
      List.drop_eq_nil_of_le (by rw [hlt]; omega), hlt, List.nil_append]
    have e2 : p + j - p = j := by omega
    rw [e2, List.drop_append_eq_append_drop]
    have e3 : j - R.length = 0 := by omega
    rw [e3, List.drop_zero]
  refine ⟨?_, ?_⟩
  · rw [hdrop]
    exact isPrefixOf_append_right _ hj.1
  · simp [List.length_append, List.length_take, List.length_drop]
    omega

theorem locate_nth_eq_get_occPositions {D A : List Char} (hA : A ≠ []) :
    ∀ (fuel : Nat) {n s : Nat}, 1 ≤ n → D.length + 1 ≤ fuel + s →
      locate_nth D A n s = (occPositions D A fuel s).get? (n - 1) := by
  intro fuel
  induction fuel with
  | zero =>
    intro n s hn hf
    have hloc : locate D A s = none := by
      unfold locate
      rw [if_neg (by omega)]
    rw [locate_nth_of_locate_none hloc n]
    simp [occPositions]
  | succ fuel ih =>
    intro n s hn hf
    cases hloc : locate D A s with
    | none =>
      rw [locate_nth_of_locate_none hloc n]
      simp [occPositions, hloc]
    | some p =>
      have hp := locate_some hloc
      have hA1 : 1 ≤ A.length := List.length_pos.mpr hA
      rcases n with _ | n'
      · omega
      rcases n' with _ | m
      · simp [locate_nth, occPositions, hloc]
      · have h1 : locate_nth D A (m + 2) s = locate_nth D A (m + 1) (p + A.length) := by
          simp [locate_nth, hloc]
        rw [h1, ih (n := m + 1) (s := p + A.length) (by omega) (by omega)]
        simp [occPositions, hloc]

/-- C1: for a document `D = P ++ A ++ S` in which the anchor `A` occurs
exactly once, `apply D none A 1 R` returns `Applied` with content equal to
`D` with the unique occurrence of `A` replaced by `R`, and the result's
length is `D.length - A.length + R.length`. -/
theorem apply_exactness (D A R P S : List Char)
    (hD : D = P ++ A ++ S) (huniq : occCount D A = 1) :
    apply D none A 1 R = .applied (P ++ R ++ S) ∧
    (P ++ R ++ S).length = D.length - A.length + R.length := by
  subst hD
  have hocc : occursAt A (P ++ A ++ S) P.length := by
    constructor
    · have hd : (P ++ A ++ S).drop P.length = A ++ S := by
        rw [List.append_assoc]
        exact List.drop_left P (A ++ S)
      rw [hd]
      exact isPrefixOf_append_right S (isPrefixOf_self A)
    · simp [List.length_append]
  cases hf : strFind A (P ++ A ++ S) with
  | none => exact absurd hocc (strFind_none hf P.length)
  | some p =>
    have hps := strFind_some hf
    have hp : p = P.length := occCount_one_unique huniq hps.1 hocc
    subst hp
    have hnth : locate_nth (P ++ A ++ S) A 1 0 = some P.length := by
      simpa [locate_nth, locate_zero] using hf
    have ht : (P ++ A ++ S).take P.length = P := by
      rw [List.append_assoc]
      exact List.take_left P (A ++ S)
    have hd : (P ++ A ++ S).drop (P.length + A.length) = S :=
      List.drop_left' (by simp)
    constructor
    · have happly : apply (P ++ A ++ S) none A 1 R =
          .applied ((P ++ A ++ S).take P.length ++ R ++
            (P ++ A ++ S).drop (P.length + A.length)) := by
        rw [apply_none_scope, hnth]
      rw [happly, ht, hd]
    · simp [List.length_append]
      omega

theorem apply_exactness_witness :
    apply ('a' :: 'b' :: []) none ('b' :: []) 1 ('x' :: []) =
      .applied (('a' :: []) ++ ('x' :: []) ++ []) ∧
    (('a' :: []) ++ ('x' :: []) ++ ([] : List Char)).length =
      ('a' :: 'b' :: []).length - ('b' :: []).length + ('x' :: []).length :=
  apply_exactness ('a' :: 'b' :: []) ('b' :: []) ('x' :: []) ('a' :: []) []
    rfl (by decide)

/-- C2: every successful patch splices at one occurrence: the result's
length is `original.length - anchor.length + replacement.length`, and the
result agrees with the original on the prefix before the match position and
on the suffix after the match end. -/
theorem applied_frame (D : List Char) (scope : Option (List Char)) (A : List Char)
    (n : Nat) (R out : List Char) (h : apply D scope A n R = .applied out) :
    ∃ p, p + A.length ≤ D.length ∧
      out = D.take p ++ R ++ D.drop (p + A.length) ∧
      out.length = D.length - A.length + R.length ∧
      out.take p = D.take p ∧
      out.drop (p + R.length) = D.drop (p + A.length) := by
  obtain ⟨p, hocc, hout⟩ := applied_inv h
  subst hout
  have hsp := splice_props R hocc
  exact ⟨p, hsp.1, rfl, hsp.2.1, hsp.2.2.1, hsp.2.2.2⟩

theorem applied_frame_witness :
    ∃ p, p + ('a' :: []).length ≤ ('a' :: 'b' :: 'a' :: 'b' :: []).length ∧
      ('a' :: 'b' :: 'Z' :: 'Z' :: 'b' :: []) =
        ('a' :: 'b' :: 'a' :: 'b' :: []).take p ++ ('Z' :: 'Z' :: []) ++
          ('a' :: 'b' :: 'a' :: 'b' :: []).drop (p + ('a' :: []).length) ∧
      ('a' :: 'b' :: 'Z' :: 'Z' :: 'b' :: []).length =
        ('a' :: 'b' :: 'a' :: 'b' :: []).length - ('a' :: []).length
          + ('Z' :: 'Z' :: []).length ∧
      ('a' :: 'b' :: 'Z' :: 'Z' :: 'b' :: []).take p =
        ('a' :: 'b' :: 'a' :: 'b' :: []).take p ∧
      ('a' :: 'b' :: 'Z' :: 'Z' :: 'b' :: []).drop (p + ('Z' :: 'Z' :: []).length) =
        ('a' :: 'b' :: 'a' :: 'b' :: []).drop (p + ('a' :: []).length) :=
  applied_frame ('a' :: 'b' :: 'a' :: 'b' :: []) (some ('b' :: [])) ('a' :: [])
    1 ('Z' :: 'Z' :: []) ('a' :: 'b' :: 'Z' :: 'Z' :: 'b' :: []) (by decide)

/-- C3: `locate_nth` returns the n-th (1-indexed) entry of the left-to-right
non-overlapping occurrence stream (each further search restarting at the
previous match's end), `none` when fewer than `n` occurrences exist; in
particular on `D = "xx"`, `A = "x"` the occurrences are 0 and 1 and the
third is absent. -/
theorem locate_nth_correct :
    (∀ (D A : List Char) (n s : Nat), A ≠ [] → 1 ≤ n →
        locate_nth D A n s = (occPositions D A (D.length + 1) s).get? (n - 1)) ∧
    locate_nth ('x' :: 'x' :: []) ('x' :: []) 1 0 = some 0 ∧
    locate_nth ('x' :: 'x' :: []) ('x' :: []) 2 0 = some 1 ∧
    locate_nth ('x' :: 'x' :: []) ('x' :: []) 3 0 = none := by
  refine ⟨?_, by decide, by decide, by decide⟩
  intro D A n s hA hn
  exact locate_nth_eq_get_occPositions hA (D.length + 1) hn (by omega)

theorem locate_nth_correct_witness :
    locate_nth ('x' :: 'x' :: []) ('x' :: []) 2 0 =
      (occPositions ('x' :: 'x' :: []) ('x' :: []) 3 0).get? 1 :=
  locate_nth_correct.1 ('x' :: 'x' :: []) ('x' :: []) 2 0 (by decide) (by decide)

/-- C4: when the scope anchor is found at `sp`, the target search starts at
`sp` itself, so if the target occurs both before `sp` and at or after `sp`,
the splice lands on an occurrence at or after `sp`, never on the earlier
one. -/
theorem scope_enforcement (D scopeA A R : List Char) (sp q r : Nat)
    (hscope : locate D scopeA 0 = some sp)
    (_hq : occursAt A D q) (hq2 : q < sp)
    (hr : occursAt A D r) (hr2 : sp ≤ r) :
    ∃ p, sp ≤ p ∧ p ≠ q ∧ occursAt A D p ∧
      apply D (some scopeA) A 1 R =
        .applied (D.take p ++ R ++ D.drop (p + A.length)) := by
  cases hl : locate D A sp with
  | none => exact absurd hr (locate_none hl r hr2)
  | some p =>
    have hp := locate_some hl
    refine ⟨p, hp.2.1, by omega, hp.1, ?_⟩
    have hnth : locate_nth D A 1 sp = some p := by simpa [locate_nth] using hl
    rw [apply_some_scope_eq A R 1 hscope, hnth]

theorem scope_enforcement_witness :
    ∃ p, 1 ≤ p ∧ p ≠ 0 ∧ occursAt ('a' :: []) ('a' :: 'Z' :: 'a' :: []) p ∧
      apply ('a' :: 'Z' :: 'a' :: []) (some ('Z' :: [])) ('a' :: []) 1 ('r' :: []) =
        .applied (('a' :: 'Z' :: 'a' :: []).take p ++ ('r' :: []) ++
          ('a' :: 'Z' :: 'a' :: []).drop (p + ('a' :: []).length)) :=
  scope_enforcement ('a' :: 'Z' :: 'a' :: []) ('Z' :: []) ('a' :: []) ('r' :: [])
    1 0 2 (by decide) (by decide) (by decide) (by decide) (by decide)

/-- C5: an anchor that occurs nowhere in the document makes `locate` fail and
makes `apply` return `NotFound`; no new content is produced. -/
theorem absence_not_found (D A R : List Char) (h : ∀ i, ¬ occursAt A D i) :
    locate D A 0 = none ∧ apply D none A 1 R = .notFound := by
  have hloc : locate D A 0 = none := by
    cases hl : locate D A 0 with
    | none => rfl
    | some p => exact absurd (locate_some hl).1 (h p)
  refine ⟨hloc, ?_⟩
  rw [apply_none_scope, locate_nth_of_locate_none hloc 1]

theorem absence_not_found_witness :
    locate ('a' :: 'b' :: []) ('z' :: 'z' :: []) 0 = none ∧
    apply ('a' :: 'b' :: []) none ('z' :: 'z' :: []) 1 ('r' :: []) = .notFound :=
  absence_not_found ('a' :: 'b' :: []) ('z' :: 'z' :: []) ('r' :: [])
    (strFind_none (by decide))

/-- C8: when a scope anchor is requested but absent, `apply` fails with
`NotFound` whatever the target anchor, occurrence index and replacement are;
no splice happens. -/
theorem scope_absent_not_found (D scopeA A R : List Char) (n : Nat)
    (h : ∀ i, ¬ occursAt scopeA D i) :
    apply D (some scopeA) A n R = .notFound := by
  have hloc : locate D scopeA 0 = none := by
    cases hl : locate D scopeA 0 with
    | none => rfl
    | some p => exact absurd (locate_some hl).1 (h p)
  rw [apply_some_scope, hloc]

theorem scope_absent_not_found_witness :
    apply ('a' :: 'b' :: []) (some ('z' :: [])) ('a' :: []) 1 ('r' :: []) = .notFound :=
  scope_absent_not_found ('a' :: 'b' :: []) ('z' :: []) ('a' :: []) ('r' :: []) 1
    (strFind_none (by decide))

/-- C10: a successful `apply` performs exactly one splice and never rescans
the spliced-in replacement: every occurrence of the target anchor inside the
replacement text survives in the result. -/
theorem replacement_not_rescanned (D : List Char) (scope : Option (List Char))
    (A : List Char) (n : Nat) (R out : List Char)
    (h : apply D scope A n R = .applied out) :
    ∃ p, out = D.take p ++ R ++ D.drop (p + A.length) ∧
      ∀ j, occursAt A R j → occursAt A out (p + j) := by
  obtain ⟨p, hocc, hout⟩ := applied_inv h
  subst hout
  exact ⟨p, rfl, fun j hj => occursAt_in_replacement hocc hj⟩

theorem replacement_not_rescanned_witness :
    ∃ p, ('a' :: 'b' :: 'b' :: []) =
        ('a' :: 'b' :: []).take p ++ ('b' :: 'b' :: []) ++
          ('a' :: 'b' :: []).drop (p + ('b' :: []).length) ∧
      ∀ j, occursAt ('b' :: []) ('b' :: 'b' :: []) j →
        occursAt ('b' :: []) ('a' :: 'b' :: 'b' :: []) (p + j) :=
  replacement_not_rescanned ('a' :: 'b' :: []) none ('b' :: []) 1
    ('b' :: 'b' :: []) ('a' :: 'b' :: 'b' :: []) (by decide)

theorem replaceAll_nil (M R : List Char) :
    replaceAll M R [] = if M.isEmpty then R else [] := by
  rw [replaceAll.eq_def]

theorem replaceAll_cons (M R : List Char) (c : Char) (rest : List Char) :
    replaceAll M R (c :: rest) =
      if M.isEmpty then R ++ c :: replaceAll M R rest
      else if M.isPrefixOf (c :: rest) then
        R ++ replaceAll M R (rest.drop (M.length - 1))
      else c :: replaceAll M R rest := by
  rw [replaceAll.eq_def]

theorem isEmpty_false_of_ne_nil {M : List Char} (hM : M ≠ []) :
    M.isEmpty = false := by
  cases M with
  | nil => exact absurd rfl hM
  | cons c cs => rfl

/-- When the marker occurs nowhere, `content.replace` is the identity. -/
theorem replaceAll_of_no_occ {M R : List Char} (hM : M ≠ []) :
    ∀ {D : List Char}, (∀ i, ¬ occursAt M D i) → replaceAll M R D = D := by
  intro D
  induction D with
  | nil =>
    intro _
    rw [replaceAll_nil, if_neg]
    simp [isEmpty_false_of_ne_nil hM]
  | cons c rest ih =>
    intro h
    rw [replaceAll_cons, if_neg (by simp [isEmpty_false_of_ne_nil hM]), if_neg]
    · have hrest : ∀ i, ¬ occursAt M rest i := fun i hi => h (i + 1) (occursAt_cons.mpr hi)
      rw [ih hrest]
    · exact fun hpre => h 0 (occursAt_zero.mpr hpre)

/-- `content.replace` splices at the first occurrence and keeps replacing in
the remaining suffix (all occurrences, not just the first). -/
theorem replaceAll_splits {M R : List Char} (hM : M ≠ []) :
    ∀ {D : List Char} {p : Nat}, strFind M D = some p →
      replaceAll M R D = D.take p ++ R ++ replaceAll M R (D.drop (p + M.length)) := by
  intro D
  induction D with
  | nil =>
    intro p h
    unfold strFind at h
    rw [if_neg (fun hpre => hM (isPrefixOf_nil_iff.mp hpre))] at h
    exact Option.noConfusion h
  | cons c rest ih =>
    intro p h
    unfold strFind at h
    by_cases hpre : M.isPrefixOf (c :: rest) = true
    · rw [if_pos hpre] at h
      injection h with h
      subst h
      rw [replaceAll_cons, if_neg (by simp [isEmpty_false_of_ne_nil hM]), if_pos hpre]
      rw [List.take_zero, List.nil_append]
      obtain ⟨m, ms, rfl⟩ : ∃ m ms, M = m :: ms := by
        cases M with
        | nil => exact absurd rfl hM
        | cons m ms => exact ⟨m, ms, rfl⟩
      simp [List.drop_succ_cons]
    · rw [if_neg hpre] at h
      obtain ⟨p', hp', rfl⟩ := Option.map_eq_some'.mp h
      rw [replaceAll_cons, if_neg (by simp [isEmpty_false_of_ne_nil hM]), if_neg hpre]
      rw [ih hp']
      have e1 : p' + 1 + M.length = (p' + M.length) + 1 := by omega
      rw [e1, List.drop_succ_cons, List.take_succ_cons]
      simp

/-- When the marker block occurs nowhere, conflict-marker resolution is
`Unchanged` and `content.replace` really leaves the document identical. -/
theorem no_occ_unchanged {D M R : List Char} (h : ∀ i, ¬ occursAt M D i) :
    apply_literal_block D M R = .unchanged ∧ replaceAll M R D = D := by
  have hM : M ≠ [] := by
    intro he
    subst he
    exact h 0 ⟨by rw [List.drop_zero]; cases D <;> rfl, by simp⟩
  have hsf : strFind M D = none := by
    cases hf : strFind M D with
    | none => rfl
    | some p => exact absurd (strFind_some hf).1 (h p)
  constructor
  · unfold apply_literal_block containsSub
    rw [hsf]
    rfl
  · exact replaceAll_of_no_occ hM h

/-- C7: `apply_literal_block` with an absent marker block returns `Unchanged`
and the content is exactly the input; with the marker block present (first
occurrence at `p`) it returns `Applied` and keeps replacing past the first
occurrence (all non-overlapping occurrences, not just the first). -/
theorem apply_literal_block_correct :
    (∀ (D M R : List Char), (∀ i, ¬ occursAt M D i) →
        apply_literal_block D M R = .unchanged ∧ replaceAll M R D = D) ∧
    (∀ (D M R : List Char) (p : Nat), M ≠ [] → strFind M D = some p →
        apply_literal_block D M R =
          .applied (D.take p ++ R ++ replaceAll M R (D.drop (p + M.length)))) := by
  constructor
  · exact fun D M R h => no_occ_unchanged h
  · intro D M R p hM hf
    unfold apply_literal_block containsSub
    rw [hf, if_pos (show (some p).isSome = true from rfl), replaceAll_splits hM hf]

theorem apply_literal_block_correct_witness :
    apply_literal_block ('q' :: []) ('a' :: []) ('r' :: []) = .unchanged ∧
    apply_literal_block ('a' :: 'b' :: []) ('a' :: []) ('r' :: []) =
      .applied (('a' :: 'b' :: []).take 0 ++ ('r' :: []) ++
        replaceAll ('a' :: []) ('r' :: [])
          (('a' :: 'b' :: []).drop (0 + ('a' :: []).length))) :=
  ⟨(apply_literal_block_correct.1 ('q' :: []) ('a' :: []) ('r' :: [])
      (strFind_none (by decide))).1,
    apply_literal_block_correct.2 ('a' :: 'b' :: []) ('a' :: []) ('r' :: []) 0
      (by decide) (by decide)⟩

/-- C6 counterexample: with `D = "a"`, `M = "a"`, `R = "aa"` the first
application succeeds with content `"aa"`, and a second application of
`apply_literal_block` to that content with the same `M`, `R` is not
`Unchanged`: it returns `Applied "aaaa"`. -/
theorem literal_block_idempotence_ce :
    apply_literal_block ('a' :: []) ('a' :: []) ('a' :: 'a' :: []) =
      .applied ('a' :: 'a' :: []) ∧
    apply_literal_block ('a' :: 'a' :: []) ('a' :: []) ('a' :: 'a' :: []) =
      .applied ('a' :: 'a' :: 'a' :: 'a' :: []) := by
  constructor <;>
    simp [apply_literal_block, containsSub, strFind, replaceAll_cons, replaceAll_nil,
      List.isPrefixOf]

/-- C6 (amended): after a successful `apply_literal_block`, a second
application with the same marker and replacement returns `Unchanged`
provided the marker block no longer occurs in the produced document (when it
still occurs — e.g. the replacement block contains the marker block — a
second application modifies the document again). -/
theorem literal_block_idempotent_amended (D M R D' : List Char)
    (_h1 : apply_literal_block D M R = .applied D')
    (h2 : ∀ i, ¬ occursAt M D' i) :
    apply_literal_block D' M R = .unchanged ∧ replaceAll M R D' = D' :=
  no_occ_unchanged h2

theorem literal_block_idempotent_amended_witness :
    apply_literal_block ('x' :: 'b' :: []) ('a' :: []) ('x' :: []) = .unchanged ∧
    replaceAll ('a' :: []) ('x' :: []) ('x' :: 'b' :: []) = ('x' :: 'b' :: []) :=
  literal_block_idempotent_amended ('a' :: 'b' :: []) ('a' :: []) ('x' :: [])
    ('x' :: 'b' :: [])
    (by simp +decide [apply_literal_block, containsSub, strFind, replaceAll_cons,
      replaceAll_nil, List.isPrefixOf])
    (strFind_none (by decide))

/-- C9 counterexample: nothing rejects an empty anchor: `locate`,
`locate_nth` and `apply` all silently match it at position 0, and `apply`
splices the replacement in. -/
theorem empty_anchor_ce :
    locate ('a' :: 'b' :: []) [] 0 = some 0 ∧
    locate_nth ('a' :: 'b' :: []) [] 2 0 = some 0 ∧
    apply ('a' :: 'b' :: []) none [] 1 ('R' :: []) =
      .applied ('R' :: 'a' :: 'b' :: []) := by decide

theorem strFind_nil_anchor (D : List Char) : strFind [] D = some 0 := by
  cases D with
  | nil => rfl
  | cons c rest => rfl

/-- C9 (amended): there is no empty-anchor rejection and no `InvalidAnchor`
error: an empty anchor matches immediately, `locate` and `locate_nth` return
position 0, and `apply` returns `Applied` with the replacement spliced in at
the front (nothing removed). -/
theorem empty_anchor_matches (D R : List Char) (n : Nat) (hn : 1 ≤ n) :
    locate D [] 0 = some 0 ∧ locate_nth D [] n 0 = some 0 ∧
    apply D none [] 1 R = .applied (R ++ D) := by
  have hloc : locate D [] 0 = some 0 := by
    rw [locate_zero, strFind_nil_anchor]
  have haux : ∀ k, locate_nth D [] (k + 1) 0 = some 0 := by
    intro k
    induction k with
    | zero => simpa [locate_nth] using hloc
    | succ m ihm =>
      simp only [locate_nth, hloc, List.length_nil, Nat.add_zero]
      exact ihm
  refine ⟨hloc, ?_, ?_⟩
  · rcases n with _ | n'
    · omega
    · exact haux n'
  · have happly : apply D none [] 1 R =
        .applied (D.take 0 ++ R ++ D.drop (0 + ([] : List Char).length)) := by
      rw [apply_none_scope, haux 0]
    rw [happly]
    simp

theorem empty_anchor_matches_witness :
    locate ('a' :: []) [] 0 = some 0 ∧
    locate_nth ('a' :: []) [] 2 0 = some 0 ∧
    apply ('a' :: []) none [] 1 ('r' :: []) = .applied (('r' :: []) ++ ('a' :: [])) :=
  empty_anchor_matches ('a' :: []) ('r' :: []) 2 (by decide)
